import Mathlib

/-!
Shallow embedding of the documentation-generation core of the repository
(`scripts/generate_doc.py`): the docstring state-machine parser, the
command usage reconstructor, the command and settings document assemblers,
and the authors rewriter.  Lines of text are modelled as lists of
characters; Python string operations used by the code (strip, startswith,
split on the first colon, slicing) are embedded below.  Fallible code
(the bare tuple unpacking of `str.split` raising ValueError) is modelled
with `Option`, `none` standing for the raised exception.
-/

/-- A line of text, as a list of characters (no trailing newline). -/
abbrev Line := List Char

/-- Python `str.isspace` test for one character, as used by `str.strip`. -/
def wsC (c : Char) : Bool := c.isWhitespace

/-- Remove trailing whitespace characters. -/
def dropTrail (l : Line) : Line := (l.reverse.dropWhile wsC).reverse

/-- Python `str.strip()`: remove leading and trailing whitespace. -/
def pstrip (l : Line) : Line := dropTrail (l.dropWhile wsC)

/-- Python `str.split(sep, maxsplit=1)` on the first colon.  Returns `none`
when the line holds no colon, in which case the tuple unpacking in the
source raises ValueError. -/
def splitColon : Line → Option (Line × Line)
  | [] => none
  | c :: cs =>
    if c = ':' then some ([], cs)
    else (splitColon cs).map (fun p => (c :: p.1, p.2))

/-- Python `' '.join(...)` over a list of fragments. -/
def joinSpace (ls : List Line) : Line := List.intercalate [' '] ls

/-- Lookup in an insertion-ordered association list (Python dict read). -/
def lookupA {β : Type} (k : Line) : List (Line × β) → Option β
  | [] => none
  | (k₂, v) :: r => if k₂ = k then some v else lookupA k r

/-- Python dict assignment `d[k] = v`: overwrite in place if the key
exists, otherwise append at the end (insertion order preserved). -/
def setArg (k : Line) (v : List Line) : List (Line × List Line) → List (Line × List Line)
  | [] => [(k, v)]
  | (k₂, v₂) :: r => if k₂ = k then (k, v) :: r else (k₂, v₂) :: setArg k v r

/-- Python `d[k].append(x)` on an association list. -/
def appendArg (k : Line) (x : Line) : List (Line × List Line) → List (Line × List Line)
  | [] => []
  | (k₂, v₂) :: r => if k₂ = k then (k₂, v₂ ++ [x]) :: r else (k₂, v₂) :: appendArg k x r

/-- The states of the docstring parser (the `enum` in `_parse_docstring`). -/
inductive PState where
  | short | desc | descHidden | argStart | argInside | misc
deriving DecidableEq

/-- Accumulators of `_parse_docstring`: short description lines, long
description lines, the argument-description mapping, and the current
argument name. -/
structure ParseAcc where
  shortd : List Line
  longd : List Line
  args : List (Line × List Line)
  cur : Line
deriving DecidableEq

/-- Result of the parser: `(short_desc, long_desc, arg_descs)`. -/
abbrev ParseRes := List Line × List Line × List (Line × List Line)

/-- The `Args:` section marker. -/
def argsMarker : Line := "Args:".data

/-- The `Emit:` section marker. -/
def emitMarker : Line := "Emit:".data

/-- The `Raise:` section marker. -/
def raiseMarker : Line := "Raise:".data

/-- The `//` hide marker. -/
def hideMarker : Line := "//".data

/-- The per-line loop of `_parse_docstring`, one constructor case per
state.  A `none` result models the ValueError raised when a line in the
argument region holds no colon where one is required. -/
def parseLoop : List Line → PState → ParseAcc → Option ParseRes
  | [], _, acc => some (acc.shortd, acc.longd, acc.args)
  | l :: ls, s, acc =>
    match s with
    | .short =>
      if l = [] then parseLoop ls .desc acc
      else parseLoop ls .short { acc with shortd := acc.shortd ++ [pstrip l] }
    | .desc =>
      if argsMarker.isPrefixOf l then parseLoop ls .argStart acc
      else if emitMarker.isPrefixOf l || raiseMarker.isPrefixOf l then parseLoop ls .misc acc
      else if pstrip l = hideMarker then parseLoop ls .descHidden acc
      else if pstrip l ≠ [] then parseLoop ls .desc { acc with longd := acc.longd ++ [pstrip l] }
      else parseLoop ls .desc acc
    | .misc =>
      if argsMarker.isPrefixOf l then parseLoop ls .argStart acc
      else parseLoop ls .misc acc
    | .descHidden =>
      if argsMarker.isPrefixOf l then parseLoop ls .argStart acc
      else parseLoop ls .descHidden acc
    | .argStart =>
      match splitColon l with
      | none => none
      | some (n, d) =>
        parseLoop ls .argInside
          { acc with args := setArg (pstrip n) [pstrip d] acc.args, cur := pstrip n }
    | .argInside =>
      if l = [] then some (acc.shortd, acc.longd, acc.args)
      else if (l.drop 4).take 1 = [' '] then
        parseLoop ls .argInside { acc with args := appendArg acc.cur (pstrip l) acc.args }
      else
        match splitColon l with
        | none => none
        | some (n, d) =>
          parseLoop ls .argInside
            { acc with args := setArg (pstrip n) [pstrip d] acc.args, cur := pstrip n }

/-- Embedding of `_parse_docstring`: run the state machine from the
`short` state over the docstring lines. -/
def parse_docstring (doc : List Line) : Option ParseRes :=
  parseLoop doc .short ⟨[], [], [], []⟩

example : parse_docstring
    ["Do a thing.".data, [], "Args:".data, "    foo: the foo.".data,
     "          more text.".data, "    bar: the bar.".data] =
    some (["Do a thing.".data], [],
          [("foo".data, ["the foo.".data, "more text.".data]),
           ("bar".data, ["the bar.".data])]) := by decide

example : parse_docstring
    ["Short.".data, [], "Args:".data, "    nocolonhere".data] = none := by decide

/-- Command metadata as read from the registry: the handler docstring
(after `inspect.getdoc`), the handler parameter names, the `nargs`
bounds `(minargs, maxargs)`, the handler default values, and the two
visibility flags. -/
structure Cmd where
  doc : List Line
  args : List Line
  mn : Option Nat
  mx : Option Nat
  dflts : Option (List Line)
  hide : Bool
  debug : Bool
deriving DecidableEq

/-- The elided self-reference parameter name. -/
def selfName : Line := "self".data

/-- The elided repeat-count parameter name. -/
def countName : Line := "count".data

/-- Render the usage token for one positional index, following the
`minargs`/`maxargs` conditional of `_get_cmd_syntax`: required token,
optional token, or no token at all. -/
def renderTok (a : Line) (mn mx : Option Nat) (i : Nat) : Option Line :=
  if (match mn with | some m => decide (i ≤ m) | none => false) then
    some ('<' :: (a ++ ['>']))
  else if (match mx with | none => true | some m => decide (i ≤ m)) then
    some ('[' :: '<' :: (a ++ ['>', ']']))
  else none

/-- The parameter walk of `_get_cmd_syntax`: `self` and `count` are
skipped without consuming the positional index; every other parameter
advances the index after rendering (or omitting) its token. -/
def usageWalk : List Line → Option Nat → Option Nat → Nat → List Line
  | [], _, _, _ => []
  | a :: rest, mn, mx, i =>
    if a = selfName ∨ a = countName then usageWalk rest mn mx i
    else
      match renderTok a mn mx i with
      | some t => t :: usageWalk rest mn mx (i + 1)
      | none => usageWalk rest mn mx (i + 1)

/-- The defaults mapping of `_get_cmd_syntax`:
`dict(zip(reversed(args), reversed(defaults)))`. -/
def cmdDefaults (args : List Line) : Option (List Line) → List (Line × Line)
  | none => []
  | some ds => List.zip args.reverse ds.reverse

/-- The word list joined by `_get_cmd_syntax`: command name followed by
the rendered parameter tokens. -/
def cmd_usage_words (name : Line) (c : Cmd) : List Line :=
  name :: usageWalk c.args c.mn c.mx 1

/-- Embedding of `_get_cmd_syntax`: the usage string and the defaults. -/
def get_cmd_stx (name : Line) (c : Cmd) : Line × List (Line × Line) :=
  (joinSpace (cmd_usage_words name c), cmdDefaults c.args c.dflts)

/-- The description shown in a quick-reference row:
`inspect.getdoc(cmd.handler).splitlines()[0]`, the raw first line. -/
def quickrefDesc (doc : List Line) : Line := doc.headD []

/-- One row of the command quick-reference table. -/
def cmdQuickrefRow (n : Line) (c : Cmd) : Line :=
  "|<<cmd-".data ++ n ++ ",".data ++ n ++ ">>|".data ++ quickrefDesc c.doc

/-- The table options directive shared by the quick-reference tables. -/
def tableOpts : Line := "[options=\"header\",width=\"75%\",cols=\"25%,75%\"]".data

/-- The table rule line. -/
def tableRule : Line := "|==============".data

/-- Embedding of `_get_command_quickref` as a list of output lines. -/
def get_command_quickref (cmds : List (Line × Cmd)) : List Line :=
  [tableOpts, tableRule, "|Command|Description".data]
    ++ cmds.map (fun p => cmdQuickrefRow p.1 p.2) ++ [tableRule]

/-- One bullet item of the argument list in a command detail block. -/
def argItem (dflts : List (Line × Line)) (p : Line × List Line) : Line :=
  "* +".data ++ p.1 ++ "+: ".data ++ joinSpace p.2 ++
    (match lookupA p.1 dflts with
     | some dv => " (default: +".data ++ dv ++ "+)".data
     | none => [])

/-- Embedding of `_get_command_doc`: anchor, heading, usage line, then the
parsed short and long descriptions and the argument bullet list.  `none`
models the docstring parse error propagating out of the call. -/
def get_command_doc (name : Line) (c : Cmd) : Option (List Line) :=
  match parse_docstring c.doc with
  | none => none
  | some (sd, ld, ads) =>
    some (["[[cmd-".data ++ name ++ "]]".data,
           "==== ".data ++ name,
           "+:".data ++ (get_cmd_stx name c).1 ++ "+".data,
           [], joinSpace sd, [], joinSpace ld]
          ++ (if ads = [] then []
              else [[]] ++ ads.map (argItem (get_cmd_stx name c).2) ++ [[]])
          ++ [[]])

/-- The classification loop of `generate_commands`: `hide` sends a
command to the hidden list, otherwise `debug` to the debugging list,
otherwise to the normal list, preserving registry iteration order. -/
def classifyCmds : List (Line × Cmd) → List (Line × Cmd) × List (Line × Cmd) × List (Line × Cmd)
  | [] => ([], [], [])
  | (n, c) :: rest =>
    let t := classifyCmds rest
    if c.hide then (t.1, (n, c) :: t.2.1, t.2.2)
    else if c.debug then (t.1, t.2.1, (n, c) :: t.2.2)
    else ((n, c) :: t.1, t.2.1, t.2.2)

/-- Python string comparison (by code point), non-strict. -/
def lineLe : Line → Line → Bool
  | [], _ => true
  | _ :: _, [] => false
  | a :: as, b :: bs =>
    if a.toNat < b.toNat then true
    else if b.toNat < a.toNat then false
    else lineLe as bs

/-- Insert an element in front of the first element it compares
less-or-equal to (the stable insertion step). -/
def insertSorted {α : Type} (f : α → α → Bool) (x : α) : List α → List α
  | [] => [x]
  | y :: ys => if f x y then x :: y :: ys else y :: insertSorted f x ys

/-- Stable insertion sort, the model of Python `list.sort` /`sorted`
(both are stable). -/
def isortBy {α : Type} (f : α → α → Bool) : List α → List α
  | [] => []
  | x :: xs => insertSorted f x (isortBy f xs)

/-- Order on `(name, cmd)` pairs used by `list.sort()` in
`generate_commands`; names are unique so only the name matters. -/
def cmdLe (a b : Line × Cmd) : Bool := lineLe a.1 b.1

/-- Sequential rendering of the detail blocks of a command list; the
first parse error aborts (as the uncaught exception does). -/
def docsFor : List (Line × Cmd) → Option (List Line)
  | [] => some []
  | (n, c) :: rest =>
    match get_command_doc n c, docsFor rest with
    | some d, some r => some (d ++ r)
    | _, _ => none

/-- The fixed preamble of the debugging-commands section. -/
def debugPreamble : Line :=
  "These commands are mainly intended for debugging. They are hidden if qutebrowser was started without the `--debug`-flag.".data

/-- Embedding of `generate_commands` as the list of output lines written
to the document, or `none` when a docstring parse error aborts the run. -/
def generate_commands (reg : List (Line × Cmd)) : Option (List Line) :=
  match docsFor (isortBy cmdLe (classifyCmds reg).1),
        docsFor (isortBy cmdLe (classifyCmds reg).2.1),
        docsFor (isortBy cmdLe (classifyCmds reg).2.2) with
  | some nd, some hd, some dd =>
    some ([[], "== Commands".data, [], "=== Normal commands".data, ".Quick reference".data]
          ++ get_command_quickref (isortBy cmdLe (classifyCmds reg).1) ++ nd
          ++ [[], "=== Hidden commands".data, ".Quick reference".data]
          ++ get_command_quickref (isortBy cmdLe (classifyCmds reg).2.1) ++ hd
          ++ [[], "=== Debugging commands".data, debugPreamble, [], ".Quick reference".data]
          ++ get_command_quickref (isortBy cmdLe (classifyCmds reg).2.2) ++ dd)
  | _, _, _ => none

/-- A settings option: its type's optional enumerated valid values (each
with an optional per-value description) and its default value (the empty
string standing for a falsy default). -/
structure SettOption where
  validValues : Option (List (Line × Option Line))
  dflt : Line
deriving DecidableEq

/-- A settings section: its ordered options, its per-option description
mapping, and the section body description (`SECTION_DESC` entry). -/
structure Sect where
  options : List (Line × SettOption)
  descriptions : List (Line × Line)
  sectionDesc : Line
deriving DecidableEq

/-- Python `cgi.escape` with default arguments. -/
def escapeHtml (l : Line) : Line :=
  l.flatMap (fun c =>
    if c = '&' then "&amp;".data
    else if c = '<' then "&lt;".data
    else if c = '>' then "&gt;".data
    else [c])

/-- One row of a settings quick-reference table. -/
def settingRow (sectname optname d : Line) : Line :=
  "|<<setting-".data ++ sectname ++ "-".data ++ optname ++ ",".data
    ++ optname ++ ">>|".data ++ d

/-- The rows of one section's quick-reference table; `none` models the
KeyError raised when an option has no registered description. -/
def settingQuickrefRows (sectname : Line) (descs : List (Line × Line)) :
    List (Line × SettOption) → Option (List Line)
  | [] => some []
  | (opn, _) :: rest =>
    match lookupA opn descs, settingQuickrefRows sectname descs rest with
    | some d, some rs => some (settingRow sectname opn d :: rs)
    | _, _ => none

/-- The caption line of one section's quick-reference table. -/
def settingQuickrefTitle (sectname : Line) : Line :=
  ".Quick reference for section ".data ++ [Char.ofNat 96, Char.ofNat 96]
    ++ sectname ++ [Char.ofNat 39, Char.ofNat 39]

/-- One iteration of the `_get_setting_quickref` loop: a section with a
falsy description mapping is skipped (contributes nothing), otherwise a
full table is emitted. -/
def get_setting_quickref_sect (sectname : Line) (sect : Sect) : Option (List Line) :=
  if sect.descriptions = [] then some []
  else
    match settingQuickrefRows sectname sect.descriptions sect.options with
    | some rows =>
      some ([settingQuickrefTitle sectname, tableOpts, tableRule, "|Setting|Description".data]
            ++ rows ++ [tableRule])
    | none => none

/-- Embedding of `_get_setting_quickref` over the whole settings data. -/
def get_setting_quickref : List (Line × Sect) → Option (List Line)
  | [] => some []
  | (n, s) :: rest =>
    match get_setting_quickref_sect n s, get_setting_quickref rest with
    | some a, some b => some (a ++ b)
    | _, _ => none

/-- The valid-values block of one option detail. -/
def validValsLines : Option (List (Line × Option Line)) → List Line
  | none => []
  | some vvs =>
    ["Valid values:".data, []]
      ++ vvs.map (fun p =>
           match p.2 with
           | some d => " * +".data ++ p.1 ++ "+: ".data ++ d
           | none => " * +".data ++ p.1 ++ "+".data)
      ++ [[]]

/-- The default-value line of one option detail. -/
def defaultLine (d : Line) : Line :=
  if d = [] then "Default: empty".data
  else "Default: +pass:[".data ++ escapeHtml d ++ "]+".data

/-- One option detail block of `generate_settings`. -/
def optionBlock (sectname : Line) (descs : List (Line × Line)) (opn : Line)
    (o : SettOption) : Option (List Line) :=
  match lookupA opn descs with
  | none => none
  | some d =>
    some ([[], "[[setting-".data ++ sectname ++ "-".data ++ opn ++ "]]".data,
           "==== ".data ++ opn, d, []]
          ++ validValsLines o.validValues ++ [defaultLine o.dflt])

/-- All option detail blocks of one section, in option order. -/
def optionBlocks (sectname : Line) (descs : List (Line × Line)) :
    List (Line × SettOption) → Option (List Line)
  | [] => some []
  | (opn, o) :: rest =>
    match optionBlock sectname descs opn o, optionBlocks sectname descs rest with
    | some b, some bs => some (b ++ bs)
    | _, _ => none

/-- One iteration of the `generate_settings` section loop: the heading and
the section body description are always written; the per-option detail
blocks only when the description mapping is non-empty. -/
def generate_settings_sect (sectname : Line) (sect : Sect) : Option (List Line) :=
  if sect.descriptions = [] then
    some [[], "=== ".data ++ sectname, sect.sectionDesc]
  else
    match optionBlocks sectname sect.descriptions sect.options with
    | some bs => some ([[], "=== ".data ++ sectname, sect.sectionDesc] ++ bs)
    | none => none

/-- Python `Counter` over a list of names: `(name, count)` pairs in
first-seen order. -/
def addName (n : Line) : List (Line × Nat) → List (Line × Nat)
  | [] => [(n, 1)]
  | (m, k) :: r => if m = n then (m, k + 1) :: r else (m, k) :: addName n r

/-- Counter of the commit author names, keys in first-seen order. -/
def firstSeenCounts (names : List Line) : List (Line × Nat) :=
  names.foldl (fun acc n => addName n acc) []

/-- Comparison by count used by `sorted(cnt, key=lambda k: cnt[k])`. -/
def cntLe (a b : Line × Nat) : Bool := decide (a.2 ≤ b.2)

/-- Stable ascending sort of the `(name, count)` pairs by count. -/
def sortPairs (l : List (Line × Nat)) : List (Line × Nat) := isortBy cntLe l

/-- The author emission order of `regenerate_authors`: counts in
first-seen order, stably sorted ascending by count, names only. -/
def sortedAuthors (commits : List Line) : List Line :=
  (sortPairs (firstSeenCounts commits)).map (·.1)

/-- The start sentinel of the authors region. -/
def startMarker : Line := "// QUTE_AUTHORS_START".data

/-- The end sentinel of the authors region. -/
def endMarker : Line := "// QUTE_AUTHORS_END".data

/-- The line-copying loop of `regenerate_authors` with its `ignore` flag:
the start marker is echoed and followed by the bullet list, lines are
dropped while `ignore` is set, the end marker is echoed and clears the
flag, every other line is copied through. -/
def rewriteLoop (authors : List Line) : List Line → Bool → List Line
  | [], _ => []
  | l :: ls, ign =>
    if pstrip l = startMarker then
      l :: (authors.map (fun a => "* ".data ++ a) ++ rewriteLoop authors ls true)
    else if pstrip l = endMarker then l :: rewriteLoop authors ls false
    else if ign then rewriteLoop authors ls ign
    else l :: rewriteLoop authors ls ign

/-- Embedding of `regenerate_authors`: the content of the temporary file
that unconditionally replaces the target file.  The loop itself raises
nothing, so the function is total. -/
def regenerate_authors (commits : List Line) (fileLines : List Line) : List Line :=
  rewriteLoop (sortedAuthors commits) fileLines false

example : regenerate_authors ["A".data, "B".data, "A".data]
    ["pre".data, "// QUTE_AUTHORS_START".data, "* old".data,
     "// QUTE_AUTHORS_END".data, "post".data] =
    ["pre".data, "// QUTE_AUTHORS_START".data, "* B".data, "* A".data,
     "// QUTE_AUTHORS_END".data, "post".data] := by decide

/-- Specification-side rendering of the usage tokens (§4.2 of the spec):
a 1-based positional index ranges over the non-elided parameters only,
and each index renders through the required/optional/omitted rule. -/
def specUsageTokens (args : List Line) (mn mx : Option Nat) : List Line :=
  (List.enumFrom 1 (args.filter (fun a => !decide (a = selfName ∨ a = countName)))).filterMap
    (fun p => renderTok p.2 mn mx p.1)

/-- Strict comparison of two lines (code-point order, distinct). -/
def lineLt (a b : Line) : Prop := lineLe a b = true ∧ a ≠ b

/-- True when the first character, if any, is not whitespace. -/
def headNotWs : Line → Bool
  | [] => true
  | c :: _ => !wsC c

/-- One well-formed argument group of a docstring `Args:` section: the
header line `    name: frag` followed by its continuation lines. -/
structure AGroup where
  name : Line
  frag : Line
  conts : List Line
deriving DecidableEq

/-- The header line of an argument group. -/
def groupHeader (g : AGroup) : Line := "    ".data ++ (g.name ++ ':' :: g.frag)

/-- All input lines of an argument group. -/
def groupLines (g : AGroup) : List Line := groupHeader g :: g.conts

/-- The input lines of a list of argument groups. -/
def flattenGroups (gs : List AGroup) : List Line := gs.flatMap groupLines

/-- The description fragments recorded for a group by the parser. -/
def groupVal (g : AGroup) : List Line := pstrip g.frag :: g.conts.map pstrip

/-- The mapping entry produced for a group. -/
def groupEntry (g : AGroup) : Line × List Line := (g.name, groupVal g)

/-- Well-formedness of an argument group: non-empty colon-free name with
no whitespace at either end, and every continuation line carrying a space
at string index 4 (the continuation test of the parser). -/
def wfGroup (g : AGroup) : Prop :=
  g.name ≠ [] ∧ headNotWs g.name = true ∧ headNotWs g.name.reverse = true ∧
    ':' ∉ g.name ∧ ∀ c ∈ g.conts, (c.drop 4).take 1 = [' ']

instance (g : AGroup) : Decidable (wfGroup g) := by
  unfold wfGroup
  infer_instance

/-- The three class heading lines of the commands section, in the fixed
order the code writes them. -/
def cmdSectionHeads : List Line :=
  ["=== Normal commands".data, "=== Hidden commands".data, "=== Debugging commands".data]

/-- A command whose docstring argument header lacks a colon. -/
def cmdBad : Cmd :=
  ⟨["Break things.".data, [], "Args:".data, "    nocolon".data],
   [selfName], none, none, none, false, false⟩

/-- A command with a well-formed docstring. -/
def cmdGood : Cmd :=
  ⟨["Fine.".data, [], "Args:".data, "    x: an x.".data],
   [selfName, "x".data], none, none, none, false, false⟩

/-- A normal command fixture. -/
def cmdNorm : Cmd := ⟨["Open a url.".data], [selfName, "url".data], none, none, none, false, false⟩

/-- A hidden command fixture. -/
def cmdHid : Cmd := ⟨["Scroll down.".data], [selfName], none, none, none, true, false⟩

/-- A debugging command fixture. -/
def cmdDbg : Cmd := ⟨["Crash now.".data], [selfName], none, none, none, false, true⟩

/-- A small command registry fixture. -/
def regW : List (Line × Cmd) :=
  [("open".data, cmdNorm), ("scroll".data, cmdHid), ("crash".data, cmdDbg), ("back".data, cmdNorm)]

/-- The same registry in a different iteration order. -/
def regW2 : List (Line × Cmd) :=
  [("back".data, cmdNorm), ("crash".data, cmdDbg), ("open".data, cmdNorm), ("scroll".data, cmdHid)]

/-- The classification loop is the triple of order-preserving filters of
the registry by the flag predicates. -/
theorem classifyCmds_eq_filter (reg : List (Line × Cmd)) :
    classifyCmds reg =
      (reg.filter (fun p => !p.2.hide && !p.2.debug),
       reg.filter (fun p => p.2.hide),
       reg.filter (fun p => !p.2.hide && p.2.debug)) := by
  induction reg with
  | nil => rfl
  | cons x xs ih =>
    obtain ⟨n, c⟩ := x
    simp only [classifyCmds, ih, List.filter]
    cases hh : c.hide <;> cases hd : c.debug <;> simp [hh, hd]

/-- Claim C8: a settings section with an empty per-option description
mapping contributes no rows and no table to the settings quick-reference,
and its section rendering is exactly the heading and the body
description, with no per-option detail blocks. -/
theorem c8_empty_section (sectname : Line) (sect : Sect)
    (h : sect.descriptions = []) :
    get_setting_quickref_sect sectname sect = some [] ∧
    generate_settings_sect sectname sect =
      some [[], "=== ".data ++ sectname, sect.sectionDesc] := by
  constructor <;> simp [get_setting_quickref_sect, generate_settings_sect, h]

/-- Witness for C8 at a concrete one-option section with no
descriptions. -/
theorem c8_empty_section_witness :
    get_setting_quickref_sect "general".data
      ⟨[("ignorecase".data, ⟨none, "true".data⟩)], [], "General options.".data⟩ = some [] ∧
    generate_settings_sect "general".data
      ⟨[("ignorecase".data, ⟨none, "true".data⟩)], [], "General options.".data⟩ =
      some [[], "=== ".data ++ "general".data, "General options.".data] :=
  c8_empty_section "general".data
    ⟨[("ignorecase".data, ⟨none, "true".data⟩)], [], "General options.".data⟩ rfl

/-- The three classification lists together hold exactly the registry
entries, counted with multiplicity. -/
theorem classifyCmds_length (reg : List (Line × Cmd)) :
    (classifyCmds reg).1.length + (classifyCmds reg).2.1.length +
      (classifyCmds reg).2.2.length = reg.length := by
  induction reg with
  | nil => rfl
  | cons x xs ih =>
    obtain ⟨n, c⟩ := x
    simp only [classifyCmds]
    cases hh : c.hide <;> cases hd : c.debug <;> simp [hh, hd] <;> omega

/-- Claim C10: the classification of commands into the three
documentation classes is exhaustive and disjoint, and the hidden flag
takes precedence over the debug flag: a command is in the normal list
exactly when both flags are clear, in the hidden list exactly when
`hide` is set (regardless of `debug`), and in the debugging list exactly
when `debug` is set and `hide` is clear; the three lists together hold
exactly as many entries as the registry. -/
theorem c10_classification (reg : List (Line × Cmd)) (x : Line × Cmd) :
    (x ∈ (classifyCmds reg).1 ↔ x ∈ reg ∧ x.2.hide = false ∧ x.2.debug = false) ∧
    (x ∈ (classifyCmds reg).2.1 ↔ x ∈ reg ∧ x.2.hide = true) ∧
    (x ∈ (classifyCmds reg).2.2 ↔ x ∈ reg ∧ x.2.hide = false ∧ x.2.debug = true) ∧
    (classifyCmds reg).1.length + (classifyCmds reg).2.1.length +
      (classifyCmds reg).2.2.length = reg.length := by
  rw [classifyCmds_eq_filter]
  refine ⟨?_, ?_, ?_, ?_⟩
  · simp [List.mem_filter, and_assoc]
  · simp [List.mem_filter]
  · simp [List.mem_filter, and_assoc]
  · rw [← classifyCmds_eq_filter]
    exact classifyCmds_length reg

/-- The parameter walk started at any index equals the indexed rendering
of the non-elided parameters. -/
theorem usageWalk_eq_enum (args : List Line) (mn mx : Option Nat) (i : Nat) :
    usageWalk args mn mx i =
      (List.enumFrom i (args.filter (fun a => !decide (a = selfName ∨ a = countName)))).filterMap
        (fun p => renderTok p.2 mn mx p.1) := by
  induction args generalizing i with
  | nil => rfl
  | cons a rest ih =>
    by_cases h : a = selfName ∨ a = countName
    · have hb : (!decide (a = selfName ∨ a = countName)) = false := by simp [h]
      simp only [usageWalk, if_pos h, List.filter_cons, hb, ih]
      rcases h with h | h <;> simp [h]
    · have hb : (!decide (a = selfName ∨ a = countName)) = true := by simp [h]
      simp only [usageWalk, if_neg h, List.filter_cons, hb, if_pos]
      cases hr : renderTok a mn mx i <;>
        simp [List.enumFrom, List.filterMap_cons, hr, ih]

/-- Claim C5: the usage reconstructor walks parameters in declaration
order with a 1-based index advanced only by non-elided parameters, and
each index renders through the required/optional/omitted rule; for
bounds (min 1, max 2) and parameters `self`, `amount`, `direction` the
usage words are exactly the command name, one required token and one
optional token, in declared order, with `self` absent. -/
theorem c5_usage_tokens :
    (∀ (args : List Line) (mn mx : Option Nat),
        usageWalk args mn mx 1 = specUsageTokens args mn mx) ∧
    cmd_usage_words "grow".data
        ⟨["Grow the window.".data], [selfName, "amount".data, "direction".data],
         some 1, some 2, none, false, false⟩ =
      ["grow".data, "<amount>".data, "[<direction>]".data] := by
  constructor
  · intro args mn mx
    exact usageWalk_eq_enum args mn mx 1
  · decide

/-- On marker-free input the rewrite loop copies everything when not
ignoring and drops everything when ignoring. -/
theorem rewriteLoop_no_markers (authors : List Line) (ls : List Line) (b : Bool)
    (h : ∀ l ∈ ls, pstrip l ≠ startMarker ∧ pstrip l ≠ endMarker) :
    rewriteLoop authors ls b = if b then [] else ls := by
  induction ls generalizing b with
  | nil => cases b <;> rfl
  | cons l ls ih =>
    obtain ⟨h1, h2⟩ := h l (List.mem_cons_self l ls)
    have hrest : ∀ x ∈ ls, pstrip x ≠ startMarker ∧ pstrip x ≠ endMarker :=
      fun x hx => h x (List.mem_cons_of_mem l hx)
    cases b <;> simp [rewriteLoop, h1, h2, ih _ hrest]

/-- A marker-free prefix passes through the rewrite loop unchanged. -/
theorem rewriteLoop_pass_through (authors pre rest : List Line)
    (h : ∀ l ∈ pre, pstrip l ≠ startMarker ∧ pstrip l ≠ endMarker) :
    rewriteLoop authors (pre ++ rest) false = pre ++ rewriteLoop authors rest false := by
  induction pre with
  | nil => rfl
  | cons l pre ih =>
    obtain ⟨h1, h2⟩ := h l (List.mem_cons_self l pre)
    have hrest : ∀ x ∈ pre, pstrip x ≠ startMarker ∧ pstrip x ≠ endMarker :=
      fun x hx => h x (List.mem_cons_of_mem l hx)
    simp [rewriteLoop, h1, h2, ih hrest]

/-- Claim C1 (amended): the authors rewriter performs no marker
validation and never fails.  When neither marker occurs, the content
passes through unchanged (but the file is still rewritten in place);
when the start marker occurs and no end marker follows it, the output is
the prefix, the start marker line and the regenerated bullet list, and
every later original line is dropped — this truncated file is what
replaces the target. -/
theorem c1_no_marker_validation (commits pre post : List Line) (s : Line)
    (hpre : ∀ l ∈ pre, pstrip l ≠ startMarker ∧ pstrip l ≠ endMarker)
    (hpost : ∀ l ∈ post, pstrip l ≠ startMarker ∧ pstrip l ≠ endMarker)
    (hs : pstrip s = startMarker) :
    regenerate_authors commits pre = pre ∧
    regenerate_authors commits (pre ++ s :: post) =
      pre ++ s :: (sortedAuthors commits).map (fun a => "* ".data ++ a) := by
  constructor
  · simpa using rewriteLoop_no_markers (sortedAuthors commits) pre false hpre
  · unfold regenerate_authors
    rw [rewriteLoop_pass_through _ _ _ hpre]
    simp [rewriteLoop, hs, rewriteLoop_no_markers _ _ _ hpost]

/-- Witness for the amended C1 at concrete inputs. -/
theorem c1_no_marker_validation_witness :
    regenerate_authors ["Ann".data] ["just text".data, "more text".data] =
      ["just text".data, "more text".data] ∧
    regenerate_authors ["Ann".data]
      (["just text".data, "more text".data] ++ "  // QUTE_AUTHORS_START".data :: ["old line".data]) =
      ["just text".data, "more text".data] ++ "  // QUTE_AUTHORS_START".data ::
        (sortedAuthors ["Ann".data]).map (fun a => "* ".data ++ a) :=
  c1_no_marker_validation ["Ann".data] ["just text".data, "more text".data]
    ["old line".data] "  // QUTE_AUTHORS_START".data
    (by decide) (by decide) (by decide)

/-- Counterexample to C1 as stated: with the end marker missing the
rewrite does not fail — it produces a definite output in which every
line after the start marker is dropped, and this output (differing from
the original) is what replaces the target file. -/
theorem c1_counterexample :
    regenerate_authors ["Ann".data]
      ["// QUTE_AUTHORS_START".data, "* old".data, "tail text".data] =
      ["// QUTE_AUTHORS_START".data, "* Ann".data] ∧
    regenerate_authors ["Ann".data]
      ["// QUTE_AUTHORS_START".data, "* old".data, "tail text".data] ≠
      ["// QUTE_AUTHORS_START".data, "* old".data, "tail text".data] := by
  decide

/-- Joining a single fragment with spaces is the identity. -/
theorem joinSpace_single (x : Line) : joinSpace [x] = x := by
  simp [joinSpace, List.intercalate]

/-- Once the parser has left the `short` state it never returns to it,
so the short-description accumulator is frozen. -/
theorem parseLoop_shortd (ls : List Line) (s : PState) (acc : ParseAcc) (res : ParseRes)
    (hs : s ≠ PState.short) (h : parseLoop ls s acc = some res) : res.1 = acc.shortd := by
  induction ls generalizing s acc with
  | nil =>
    simp only [parseLoop] at h
    cases h
    rfl
  | cons l ls ih =>
    cases s with
    | short => exact absurd rfl hs
    | desc =>
      simp only [parseLoop] at h
      split at h
      · have hx := ih PState.argStart _ (by decide) h
        exact hx
      · split at h
        · have hx := ih PState.misc _ (by decide) h
          exact hx
        · split at h
          · have hx := ih PState.descHidden _ (by decide) h
            exact hx
          · split at h
            · have hx := ih PState.desc _ (by decide) h
              exact hx
            · have hx := ih PState.desc _ (by decide) h
              exact hx
    | misc =>
      simp only [parseLoop] at h
      split at h
      · have hx := ih PState.argStart _ (by decide) h
        exact hx
      · have hx := ih PState.misc _ (by decide) h
        exact hx
    | descHidden =>
      simp only [parseLoop] at h
      split at h
      · have hx := ih PState.argStart _ (by decide) h
        exact hx
      · have hx := ih PState.descHidden _ (by decide) h
        exact hx
    | argStart =>
      simp only [parseLoop] at h
      split at h
      · exact absurd h (by simp)
      · have hx := ih PState.argInside _ (by decide) h
        exact hx
    | argInside =>
      simp only [parseLoop] at h
      split at h
      · cases h; rfl
      · split at h
        · have hx := ih PState.argInside _ (by decide) h
          exact hx
        · split at h
          · exact absurd h (by simp)
          · have hx := ih PState.argInside _ (by decide) h
            exact hx

/-- Claim C4 (amended): the quick-reference row shows exactly the raw
first line of the docstring; it agrees with the §4.1 short description
precisely when that short description is a single line carrying no
surrounding whitespace — for docstrings whose first line is already
trimmed and whose second line is blank, the two computations coincide. -/
theorem c4_quickref_first_line (l : Line) (rest : List Line) (res : ParseRes)
    (hl : l ≠ []) (hstrip : pstrip l = l)
    (h : parse_docstring (l :: [] :: rest) = some res) :
    joinSpace res.1 = quickrefDesc (l :: [] :: rest) := by
  have hstep : parseLoop rest .desc ⟨[pstrip l], [], [], []⟩ = some res := by
    simpa [parse_docstring, parseLoop, hl] using h
  have h1 := parseLoop_shortd rest .desc _ res (by decide) hstep
  simp only [quickrefDesc, h1, hstrip, List.headD]
  exact joinSpace_single l

/-- Witness for the amended C4 at a concrete single-line docstring. -/
theorem c4_quickref_first_line_witness :
    joinSpace ["Open a url.".data] = quickrefDesc ["Open a url.".data, []] :=
  c4_quickref_first_line "Open a url.".data [] (["Open a url.".data], [], [])
    (by decide) (by decide) (by decide)

/-- Counterexample to C4 as stated: for a docstring whose short
description spans two lines, the parser short description joins both
lines while the quick-reference row shows only the first, so the two
computations disagree. -/
theorem c4_counterexample :
    parse_docstring ["Resize the window.".data, "Fully.".data, [], "More.".data] =
      some (["Resize the window.".data, "Fully.".data], ["More.".data], []) ∧
    quickrefDesc ["Resize the window.".data, "Fully.".data, [], "More.".data] =
      "Resize the window.".data ∧
    joinSpace ["Resize the window.".data, "Fully.".data] ≠ "Resize the window.".data :=
  ⟨by decide, by decide, by decide⟩

/-- A docstring parse failure makes the command detail block fail. -/
theorem get_command_doc_none (n : Line) (c : Cmd) (h : parse_docstring c.doc = none) :
    get_command_doc n c = none := by
  simp [get_command_doc, h]

/-- A parse failure of any member command aborts the sequential
rendering of the detail blocks. -/
theorem docsFor_none (cmds : List (Line × Cmd)) (n : Line) (c : Cmd)
    (hmem : (n, c) ∈ cmds) (h : parse_docstring c.doc = none) : docsFor cmds = none := by
  induction cmds with
  | nil => cases hmem
  | cons x rest ih =>
    obtain ⟨n₂, c₂⟩ := x
    rcases List.mem_cons.mp hmem with heq | hm
    · cases heq
      simp only [docsFor, get_command_doc_none n c h]
    · simp only [docsFor, ih hm]
      cases get_command_doc n₂ c₂ <;> rfl

/-- Inserting preserves the multiset of elements. -/
theorem insertSorted_perm {α : Type} (f : α → α → Bool) (x : α) (l : List α) :
    List.Perm (insertSorted f x l) (x :: l) := by
  induction l with
  | nil => rfl
  | cons y ys ih =>
    by_cases h : f x y = true
    · simp [insertSorted, h]
    · simp only [insertSorted, if_neg h]
      exact (ih.cons y).trans (List.Perm.swap x y ys)

/-- Insertion sort permutes its input. -/
theorem isortBy_perm {α : Type} (f : α → α → Bool) (l : List α) : List.Perm (isortBy f l) l := by
  induction l with
  | nil => rfl
  | cons x xs ih => exact (insertSorted_perm f x (isortBy f xs)).trans (ih.cons x)

/-- Claim C2 (amended): a new-parameter line lacking a colon in a
docstring argument section is a reported parse error, and that error
aborts the entire generation of the commands section — no surrounding
command entry is produced. -/
theorem c2_parse_error_aborts_run (reg : List (Line × Cmd)) (n : Line) (c : Cmd)
    (hmem : (n, c) ∈ reg) (h : parse_docstring c.doc = none) :
    generate_commands reg = none := by
  have hclass : (n, c) ∈ (classifyCmds reg).1 ∨ (n, c) ∈ (classifyCmds reg).2.1 ∨
      (n, c) ∈ (classifyCmds reg).2.2 := by
    rw [classifyCmds_eq_filter]
    cases hh : c.hide
    · cases hd : c.debug
      · exact Or.inl (by simp [List.mem_filter, hmem, hh, hd])
      · exact Or.inr (Or.inr (by simp [List.mem_filter, hmem, hh, hd]))
    · exact Or.inr (Or.inl (by simp [List.mem_filter, hmem, hh]))
  simp only [generate_commands]
  rcases hclass with hcl | hcl | hcl
  · rw [docsFor_none _ n c (((isortBy_perm cmdLe _).mem_iff).mpr hcl) h]
  · rw [docsFor_none _ n c (((isortBy_perm cmdLe _).mem_iff).mpr hcl) h]
    cases docsFor (isortBy cmdLe (classifyCmds reg).1) <;> rfl
  · rw [docsFor_none _ n c (((isortBy_perm cmdLe _).mem_iff).mpr hcl) h]
    cases docsFor (isortBy cmdLe (classifyCmds reg).1) <;>
      cases docsFor (isortBy cmdLe (classifyCmds reg).2.1) <;> rfl

/-- Witness for the amended C2: a registry holding one malformed and one
well-formed command generates nothing. -/
theorem c2_parse_error_aborts_run_witness :
    generate_commands [("aaa".data, cmdBad), ("bbb".data, cmdGood)] = none :=
  c2_parse_error_aborts_run [("aaa".data, cmdBad), ("bbb".data, cmdGood)]
    "aaa".data cmdBad (by decide) (by decide)

/-- Counterexample to C2 as stated: with the malformed command present
the whole run yields nothing — the surrounding well-formed entry is not
generated — although that entry alone would generate fine. -/
theorem c2_counterexample :
    generate_commands [("aaa".data, cmdBad), ("bbb".data, cmdGood)] = none ∧
    (generate_commands [("bbb".data, cmdGood)]).isSome = true := by
  refine ⟨?_, by decide⟩
  decide

/-- The comparison by count is total. -/
theorem cntLe_total (a b : Line × Nat) : cntLe a b = true ∨ cntLe b a = true := by
  simp only [cntLe, decide_eq_true_eq]
  omega

/-- The comparison by count is transitive. -/
theorem cntLe_trans (a b c : Line × Nat) (h1 : cntLe a b = true) (h2 : cntLe b c = true) :
    cntLe a c = true := by
  simp only [cntLe, decide_eq_true_eq] at h1 h2 ⊢
  omega

/-- Inserting into a sorted list keeps it sorted, for a total transitive
comparison. -/
theorem pairwise_insertSorted {α : Type} (f : α → α → Bool)
    (htot : ∀ a b, f a b = true ∨ f b a = true)
    (htrans : ∀ a b c, f a b = true → f b c = true → f a c = true)
    (x : α) (l : List α) (hl : l.Pairwise (fun a b => f a b = true)) :
    (insertSorted f x l).Pairwise (fun a b => f a b = true) := by
  induction l with
  | nil => simp [insertSorted]
  | cons y ys ih =>
    rcases List.pairwise_cons.mp hl with ⟨hy, hys⟩
    by_cases h : f x y = true
    · rw [insertSorted, if_pos h]
      refine List.pairwise_cons.mpr ⟨?_, hl⟩
      intro z hz
      rcases List.mem_cons.mp hz with rfl | hz
      · exact h
      · exact htrans x y z h (hy z hz)
    · rw [insertSorted, if_neg h]
      refine List.pairwise_cons.mpr ⟨?_, ih hys⟩
      intro z hz
      have hz2 := ((insertSorted_perm f x ys).mem_iff).mp hz
      rcases List.mem_cons.mp hz2 with hzx | hz2
      · rw [hzx]
        rcases htot x y with h1 | h1
        · exact absurd h1 h
        · exact h1
      · exact hy z hz2

/-- The sorted author pairs are pairwise ascending by count. -/
theorem sortPairs_sorted (l : List (Line × Nat)) :
    (sortPairs l).Pairwise (fun a b => a.2 ≤ b.2) := by
  have h : (sortPairs l).Pairwise (fun a b => cntLe a b = true) := by
    unfold sortPairs
    induction l with
    | nil => simp [isortBy]
    | cons x xs ih =>
      exact pairwise_insertSorted cntLe cntLe_total cntLe_trans x _ ih
  exact h.imp (fun hab => by simpa [cntLe] using hab)

/-- Inserting an element of the filtered count class puts it first in
that class: every element it jumps over has a strictly smaller count. -/
theorem filter_insertSorted_pos (x : Line × Nat) (k : Nat) (l : List (Line × Nat))
    (hx : x.2 = k) :
    (insertSorted cntLe x l).filter (fun p => p.2 == k) =
      x :: l.filter (fun p => p.2 == k) := by
  induction l with
  | nil => simp [insertSorted, List.filter, hx]
  | cons y ys ih =>
    by_cases h : cntLe x y = true
    · rw [insertSorted, if_pos h, List.filter_cons]
      simp [hx]
    · rw [insertSorted, if_neg h, List.filter_cons]
      have hy : (y.2 == k) = false := by
        simp only [cntLe, decide_eq_true_eq] at h
        simp only [beq_eq_false_iff_ne, ne_eq]
        omega
      rw [hy, ih, List.filter_cons, hy]
      simp

/-- Inserting an element outside the filtered count class leaves that
class unchanged. -/
theorem filter_insertSorted_neg (x : Line × Nat) (k : Nat) (l : List (Line × Nat))
    (hx : x.2 ≠ k) :
    (insertSorted cntLe x l).filter (fun p => p.2 == k) =
      l.filter (fun p => p.2 == k) := by
  have hxb : (x.2 == k) = false := by simpa using hx
  induction l with
  | nil => simp [insertSorted, List.filter, hxb]
  | cons y ys ih =>
    by_cases h : cntLe x y = true
    · rw [insertSorted, if_pos h, List.filter_cons, hxb]
      simp
    · rw [insertSorted, if_neg h, List.filter_cons, List.filter_cons, ih]

/-- Stability of the authors sort: within each count class the order of
the input is preserved exactly. -/
theorem sortPairs_stable (l : List (Line × Nat)) (k : Nat) :
    (sortPairs l).filter (fun p => p.2 == k) = l.filter (fun p => p.2 == k) := by
  unfold sortPairs
  induction l with
  | nil => rfl
  | cons x xs ih =>
    by_cases hx : x.2 = k
    · rw [isortBy, filter_insertSorted_pos x k _ hx, ih, List.filter_cons]
      simp [hx]
    · rw [isortBy, filter_insertSorted_neg x k _ hx, ih, List.filter_cons]
      have hb : (x.2 == k) = false := by simpa using hx
      rw [hb]
      simp

/-- Counting a name extends the key list only when the name is new, and
then at the end. -/
theorem addName_keys (n : Line) (l : List (Line × Nat)) :
    (addName n l).map (·.1) =
      if n ∈ l.map (·.1) then l.map (·.1) else l.map (·.1) ++ [n] := by
  induction l with
  | nil => simp [addName]
  | cons y ys ih =>
    obtain ⟨m, k⟩ := y
    by_cases h : m = n
    · subst h
      simp [addName]
    · rw [addName, if_neg h]
      by_cases hm : n ∈ ys.map (·.1)
      · simp only [List.map_cons, List.mem_cons]
        rw [if_pos (Or.inr hm)]
        simp [ih, hm]
      · simp only [List.map_cons, List.mem_cons]
        rw [if_neg (by
          intro hc
          rcases hc with hc | hc
          · exact h hc.symm
          · exact hm hc)]
        simp [ih, hm]

/-- The Counter keys stay duplicate-free through the fold. -/
theorem foldl_addName_keys_nodup (commits : List Line) :
    ∀ acc : List (Line × Nat), (acc.map (·.1)).Nodup →
      ((commits.foldl (fun a n => addName n a) acc).map (·.1)).Nodup := by
  induction commits with
  | nil =>
    intro acc h
    simpa using h
  | cons n ns ih =>
    intro acc h
    simp only [List.foldl_cons]
    apply ih
    rw [addName_keys]
    by_cases hm : n ∈ acc.map (·.1)
    · simpa [hm] using h
    · rw [if_neg hm]
      simp [List.nodup_append, h, hm]

/-- The keys of the commit Counter are duplicate-free. -/
theorem firstSeenCounts_keys_nodup (commits : List Line) :
    ((firstSeenCounts commits).map (·.1)).Nodup :=
  foldl_addName_keys_nodup commits [] (by simp)

/-- Claim C6: the authors rewriter emits one bullet per distinct name,
in ascending order of contribution count, ties preserving first-seen
order: the sorted pair list is pairwise ascending by count, a
permutation of the first-seen Counter pairs whose keys are
duplicate-free, each count class keeps the Counter order exactly, and on
the example multiset (Alice three times, Bob once, Cara once) the
emitted order is Bob, Cara, Alice. -/
theorem c6_authors_sorted (commits : List Line) (k : Nat) :
    (sortPairs (firstSeenCounts commits)).Pairwise (fun a b => a.2 ≤ b.2) ∧
    List.Perm (sortPairs (firstSeenCounts commits)) (firstSeenCounts commits) ∧
    ((firstSeenCounts commits).map (·.1)).Nodup ∧
    (sortPairs (firstSeenCounts commits)).filter (fun p => p.2 == k) =
      (firstSeenCounts commits).filter (fun p => p.2 == k) ∧
    sortedAuthors ["Alice".data, "Bob".data, "Alice".data, "Cara".data, "Alice".data] =
      ["Bob".data, "Cara".data, "Alice".data] :=
  ⟨sortPairs_sorted _, isortBy_perm _ _, firstSeenCounts_keys_nodup _,
   sortPairs_stable _ _, by decide⟩

/-- Claim C9: in the argument-body state the parser decides continuation
versus new parameter solely by whether the character at string index 4
is a space: every non-blank line whose index-4 character is a space is
appended to the current parameter (even a non-indented header such as
`tab: some text` whose name plus colon fills the first four columns),
and only lines failing the test are split on the first colon as a new
entry; concretely, `tab: some text` after `    foo: xy.` extends the
description of `foo` and `tab` never becomes a key. -/
theorem c9_index4_rule :
    (∀ (l : Line) (ls : List Line) (acc : ParseAcc), l ≠ [] → (l.drop 4).take 1 = [' '] →
        parseLoop (l :: ls) .argInside acc =
          parseLoop ls .argInside
            { acc with args := appendArg acc.cur (pstrip l) acc.args }) ∧
    (∀ (l : Line) (ls : List Line) (acc : ParseAcc) (n d : Line), l ≠ [] →
        (l.drop 4).take 1 ≠ [' '] → splitColon l = some (n, d) →
        parseLoop (l :: ls) .argInside acc =
          parseLoop ls .argInside
            { acc with args := setArg (pstrip n) [pstrip d] acc.args, cur := pstrip n }) ∧
    parse_docstring ["Close tabs.".data, [], "Args:".data, "    foo: xy.".data,
        "tab: some text".data] =
      some (["Close tabs.".data], [],
            [("foo".data, ["xy.".data, "tab: some text".data])]) ∧
    lookupA "tab".data [("foo".data, ["xy.".data, "tab: some text".data])] = none := by
  refine ⟨?_, ?_, by decide, by decide⟩
  · intro l ls acc hne h4
    simp only [parseLoop]
    rw [if_neg hne, if_pos h4]
  · intro l ls acc n d hne h4 hsplit
    simp only [parseLoop]
    rw [if_neg hne, if_neg h4, hsplit]

/-- Witness for C9 at the concrete `tab: some text` line in the
argument-body state. -/
theorem c9_index4_rule_witness :
    parseLoop ["tab: some text".data] .argInside
        ⟨[], [], [("foo".data, ["xy.".data])], "foo".data⟩ =
      parseLoop [] .argInside
        ⟨[], [], appendArg "foo".data (pstrip "tab: some text".data)
          [("foo".data, ["xy.".data])], "foo".data⟩ :=
  c9_index4_rule.1 "tab: some text".data []
    ⟨[], [], [("foo".data, ["xy.".data])], "foo".data⟩ (by decide) (by decide)

/-- Characters with equal code points are equal. -/
theorem char_toNat_inj (a b : Char) (h : a.toNat = b.toNat) : a = b := by
  apply Char.ext
  apply UInt32.eq_of_toBitVec_eq
  apply BitVec.eq_of_toNat_eq
  exact h

/-- The code-point comparison of lines is total. -/
theorem lineLe_total (a b : Line) : lineLe a b = true ∨ lineLe b a = true := by
  induction a generalizing b with
  | nil => exact Or.inl rfl
  | cons x xs ih =>
    cases b with
    | nil => exact Or.inr rfl
    | cons y ys =>
      by_cases h1 : x.toNat < y.toNat
      · exact Or.inl (by simp [lineLe, h1])
      · by_cases h2 : y.toNat < x.toNat
        · exact Or.inr (by simp [lineLe, h2])
        · rcases ih ys with h | h
          · exact Or.inl (by simp [lineLe, h1, h2, h])
          · exact Or.inr (by simp [lineLe, h1, h2, h])

/-- The code-point comparison of lines is transitive. -/
theorem lineLe_trans (a b c : Line) (h1 : lineLe a b = true) (h2 : lineLe b c = true) :
    lineLe a c = true := by
  induction a generalizing b c with
  | nil => rfl
  | cons x xs ih =>
    cases b with
    | nil => simp [lineLe] at h1
    | cons y ys =>
      cases c with
      | nil => simp [lineLe] at h2
      | cons z zs =>
        simp only [lineLe] at h1 h2 ⊢
        split at h1
        case isTrue hxy =>
          split at h2
          case isTrue hyz =>
            rw [if_pos (by omega)]
          case isFalse hyz =>
            split at h2
            case isTrue hzy => simp at h2
            case isFalse hzy =>
              rw [if_pos (by omega)]
        case isFalse hxy =>
          split at h1
          case isTrue hyx => simp at h1
          case isFalse hyx =>
            split at h2
            case isTrue hyz => rw [if_pos (by omega)]
            case isFalse hyz =>
              split at h2
              case isTrue hzy => simp at h2
              case isFalse hzy =>
                rw [if_neg (by omega), if_neg (by omega)]
                exact ih ys zs h1 h2

/-- The code-point comparison of lines is antisymmetric. -/
theorem lineLe_antisymm (a b : Line) (h1 : lineLe a b = true) (h2 : lineLe b a = true) :
    a = b := by
  induction a generalizing b with
  | nil =>
    cases b with
    | nil => rfl
    | cons y ys => simp [lineLe] at h2
  | cons x xs ih =>
    cases b with
    | nil => simp [lineLe] at h1
    | cons y ys =>
      simp only [lineLe] at h1 h2
      split at h1
      case isTrue hxy =>
        rw [if_neg (by omega), if_pos (by omega)] at h2
        simp at h2
      case isFalse hxy =>
        split at h1
        case isTrue hyx => simp at h1
        case isFalse hyx =>
          have hx : x = y := char_toNat_inj x y (by omega)
          rw [if_neg (by omega), if_neg (by omega)] at h2
          rw [hx, ih ys h1 h2]

/-- Command sorting yields a list pairwise ordered by name. -/
theorem isortBy_cmdLe_sorted (l : List (Line × Cmd)) :
    (isortBy cmdLe l).Pairwise (fun a b => cmdLe a b = true) := by
  induction l with
  | nil => simp [isortBy]
  | cons x xs ih =>
    exact pairwise_insertSorted cmdLe
      (fun a b => lineLe_total a.1 b.1) (fun a b c => lineLe_trans a.1 b.1 c.1) x _ ih

/-- Two name-sorted permutations with duplicate-free names coincide. -/
theorem sorted_nodup_perm_eq (l₁ l₂ : List (Line × Cmd))
    (hp : List.Perm l₁ l₂)
    (hs₁ : l₁.Pairwise (fun a b => cmdLe a b = true))
    (hs₂ : l₂.Pairwise (fun a b => cmdLe a b = true))
    (hnd : (l₁.map (·.1)).Nodup) : l₁ = l₂ := by
  have hnd₂ : (l₂.map (·.1)).Nodup := ((hp.map (·.1)).nodup_iff).mp hnd
  have hpw₁ : l₁.Pairwise (fun a b => a.1 ≠ b.1) := List.pairwise_map.mp hnd
  have hpw₂ : l₂.Pairwise (fun a b => a.1 ≠ b.1) := List.pairwise_map.mp hnd₂
  haveI : IsAntisymm (Line × Cmd) (fun a b => cmdLe a b = true ∧ a.1 ≠ b.1) :=
    ⟨fun a b hab hba => absurd (lineLe_antisymm a.1 b.1 hab.1 hba.1) hab.2⟩
  exact List.eq_of_perm_of_sorted hp (hs₁.and hpw₁) (hs₂.and hpw₂)

/-- Three designated elements interleaved in a concatenation form a
sublist in their order of occurrence. -/
theorem sublist_three {α : Type} (h1 h2 h3 : α) (A B C D : List α) :
    List.Sublist [h1, h2, h3] (A ++ h1 :: (B ++ h2 :: (C ++ h3 :: D))) := by
  have s3 : List.Sublist [h3] (C ++ h3 :: D) :=
    List.Sublist.trans (by simp) (List.sublist_append_right C (h3 :: D))
  have s2 : List.Sublist [h2, h3] (B ++ h2 :: (C ++ h3 :: D)) :=
    List.Sublist.trans (List.Sublist.cons₂ h2 s3)
      (List.sublist_append_right B (h2 :: (C ++ h3 :: D)))
  exact List.Sublist.trans (List.Sublist.cons₂ h1 s2)
    (List.sublist_append_right A (h1 :: (B ++ h2 :: (C ++ h3 :: D))))

/-- Whenever command generation succeeds, the three class headings occur
in the output in the fixed order normal, hidden, debugging. -/
theorem generate_commands_heads (reg : List (Line × Cmd)) (out : List Line)
    (h : generate_commands reg = some out) : List.Sublist cmdSectionHeads out := by
  unfold generate_commands at h
  rcases h1 : docsFor (isortBy cmdLe (classifyCmds reg).1) with _ | nd <;> rw [h1] at h
  · cases h
  rcases h2 : docsFor (isortBy cmdLe (classifyCmds reg).2.1) with _ | hd <;> rw [h2] at h
  · cases h
  rcases h3 : docsFor (isortBy cmdLe (classifyCmds reg).2.2) with _ | dd <;> rw [h3] at h
  · cases h
  cases h
  have := sublist_three "=== Normal commands".data "=== Hidden commands".data
    "=== Debugging commands".data
    [[], "== Commands".data, []]
    ([".Quick reference".data] ++ get_command_quickref (isortBy cmdLe (classifyCmds reg).1)
      ++ nd ++ [[]])
    ([".Quick reference".data] ++ get_command_quickref (isortBy cmdLe (classifyCmds reg).2.1)
      ++ hd ++ [[]])
    ([debugPreamble, [], ".Quick reference".data]
      ++ get_command_quickref (isortBy cmdLe (classifyCmds reg).2.2) ++ dd)
  simpa [cmdSectionHeads] using this

/-- Claim C7: each command class is rendered in strict lexicographic
order by name regardless of the registry iteration order, and the
classes appear in the fixed order normal, hidden, debugging: the three
sorted class lists have strictly ascending names, any reordering of the
registry produces the identical document, and the three class headings
occur in the output in that fixed order. -/
theorem c7_fixed_order (reg reg2 : List (Line × Cmd))
    (hnd : (reg.map (·.1)).Nodup) (hperm : List.Perm reg reg2) :
    ((isortBy cmdLe (classifyCmds reg).1).map (·.1)).Pairwise lineLt ∧
    ((isortBy cmdLe (classifyCmds reg).2.1).map (·.1)).Pairwise lineLt ∧
    ((isortBy cmdLe (classifyCmds reg).2.2).map (·.1)).Pairwise lineLt ∧
    generate_commands reg2 = generate_commands reg ∧
    List.Sublist cmdSectionHeads ((generate_commands reg).getD cmdSectionHeads) := by
  have hndf : ∀ (r : List (Line × Cmd)) (p : Line × Cmd → Bool),
      (r.map (·.1)).Nodup → ((r.filter p).map (·.1)).Nodup := by
    intro r p hr
    exact hr.sublist ((r.filter_sublist).map (·.1))
  have sortPW : ∀ (l : List (Line × Cmd)), ((l.map (·.1)).Nodup) →
      ((isortBy cmdLe l).map (·.1)).Pairwise lineLt := by
    intro l hl
    have h1 := isortBy_cmdLe_sorted l
    have hnd2 : ((isortBy cmdLe l).map (·.1)).Nodup :=
      (((isortBy_perm cmdLe l).map (·.1)).nodup_iff).mpr hl
    have h2 : (isortBy cmdLe l).Pairwise (fun a b => a.1 ≠ b.1) :=
      List.pairwise_map.mp hnd2
    rw [List.pairwise_map]
    exact (h1.and h2).imp (fun h => ⟨h.1, h.2⟩)
  have hnd2 : (reg2.map (·.1)).Nodup := ((hperm.map (·.1)).nodup_iff).mp hnd
  have hcls : ∀ (p : Line × Cmd → Bool),
      isortBy cmdLe (reg2.filter p) = isortBy cmdLe (reg.filter p) := by
    intro p
    apply sorted_nodup_perm_eq
    · exact ((isortBy_perm cmdLe _).trans (hperm.symm.filter p)).trans
        (isortBy_perm cmdLe _).symm
    · exact isortBy_cmdLe_sorted _
    · exact isortBy_cmdLe_sorted _
    · exact (((isortBy_perm cmdLe _).map (·.1)).nodup_iff).mpr (hndf reg2 p hnd2)
  refine ⟨?_, ?_, ?_, ?_, ?_⟩
  · rw [classifyCmds_eq_filter]
    exact sortPW _ (hndf reg _ hnd)
  · rw [classifyCmds_eq_filter]
    exact sortPW _ (hndf reg _ hnd)
  · rw [classifyCmds_eq_filter]
    exact sortPW _ (hndf reg _ hnd)
  · simp only [generate_commands, classifyCmds_eq_filter]
    rw [hcls (fun p => !p.2.hide && !p.2.debug), hcls (fun p => p.2.hide),
      hcls (fun p => !p.2.hide && p.2.debug)]
  · rcases hout : generate_commands reg with _ | out
    · simp
    · simpa using generate_commands_heads reg out hout

/-- Witness for C7 at a concrete four-command registry and one of its
permutations. -/
theorem c7_fixed_order_witness :
    ((isortBy cmdLe (classifyCmds regW).1).map (·.1)).Pairwise lineLt ∧
    ((isortBy cmdLe (classifyCmds regW).2.1).map (·.1)).Pairwise lineLt ∧
    ((isortBy cmdLe (classifyCmds regW).2.2).map (·.1)).Pairwise lineLt ∧
    generate_commands regW2 = generate_commands regW ∧
    List.Sublist cmdSectionHeads ((generate_commands regW).getD cmdSectionHeads) :=
  c7_fixed_order regW regW2 (by decide) (by decide)

/-- A line with a space at index 4 is non-blank. -/
theorem take_one_drop_ne_nil (c : Line) (h : (c.drop 4).take 1 = [' ']) : c ≠ [] := by
  intro hc
  subst hc
  simp at h

/-- Leading-whitespace removal fixes a line with a clean head. -/
theorem dropWhile_ws_eq_self (l : Line) (h : headNotWs l = true) : l.dropWhile wsC = l := by
  cases l with
  | nil => rfl
  | cons c cs =>
    simp only [headNotWs, Bool.not_eq_true'] at h
    simp [List.dropWhile_cons, h]

/-- Trailing-whitespace removal fixes a line whose last character is
clean. -/
theorem dropTrail_eq_self (l : Line) (h : headNotWs l.reverse = true) : dropTrail l = l := by
  unfold dropTrail
  rw [dropWhile_ws_eq_self l.reverse h, List.reverse_reverse]

/-- Stripping fixes a line clean at both ends. -/
theorem pstrip_eq_self (l : Line) (h1 : headNotWs l = true) (h2 : headNotWs l.reverse = true) :
    pstrip l = l := by
  unfold pstrip
  rw [dropWhile_ws_eq_self l h1, dropTrail_eq_self l h2]

/-- Four leading spaces are consumed by leading-whitespace removal. -/
theorem dropWhile_ws_spaces4 (l : Line) :
    ("    ".data ++ l).dropWhile wsC = l.dropWhile wsC := by
  have hsp : wsC ' ' = true := by decide
  show ((' ' :: ' ' :: ' ' :: ' ' :: l).dropWhile wsC) = l.dropWhile wsC
  simp [List.dropWhile_cons, hsp]

/-- Stripping a four-space-indented clean name yields the name. -/
theorem pstrip_header_name (nm : Line) (h1 : headNotWs nm = true)
    (h2 : headNotWs nm.reverse = true) : pstrip ("    ".data ++ nm) = nm := by
  unfold pstrip
  rw [dropWhile_ws_spaces4, dropWhile_ws_eq_self nm h1, dropTrail_eq_self nm h2]

/-- Splitting on the first colon around a colon-free prefix. -/
theorem splitColon_append (a b : Line) (h : ':' ∉ a) :
    splitColon (a ++ ':' :: b) = some (a, b) := by
  induction a with
  | nil => simp [splitColon]
  | cons c cs ih =>
    have hc : ¬ c = ':' := fun hcc => h (hcc ▸ List.mem_cons_self c cs)
    have hcs : ':' ∉ cs := fun hm => h (List.mem_cons_of_mem c hm)
    simp [splitColon, hc, ih hcs]

/-- Association lookup distributes over append. -/
theorem lookupA_append {β : Type} (k : Line) (l₁ l₂ : List (Line × β)) :
    lookupA k (l₁ ++ l₂) =
      (match lookupA k l₁ with
       | some v => some v
       | none => lookupA k l₂) := by
  induction l₁ with
  | nil => simp [lookupA]
  | cons x r ih =>
    obtain ⟨k₂, v⟩ := x
    by_cases h : k₂ = k
    · simp [lookupA, h]
    · simp [lookupA, h, ih]

/-- Assignment of a fresh key appends the entry at the end. -/
theorem setArg_fresh (k : Line) (v : List Line) (l : List (Line × List Line))
    (h : lookupA k l = none) : setArg k v l = l ++ [(k, v)] := by
  induction l with
  | nil => rfl
  | cons x r ih =>
    obtain ⟨k₂, v₂⟩ := x
    simp only [lookupA] at h
    by_cases hk : k₂ = k
    · rw [if_pos hk] at h
      cases h
    · rw [if_neg hk] at h
      simp [setArg, hk, ih h]

/-- Appending a fragment to the final (fresh-keyed) entry. -/
theorem appendArg_fresh_last (k x : Line) (v : List Line) (l : List (Line × List Line))
    (h : lookupA k l = none) : appendArg k x (l ++ [(k, v)]) = l ++ [(k, v ++ [x])] := by
  induction l with
  | nil => simp [appendArg]
  | cons y r ih =>
    obtain ⟨k₂, v₂⟩ := y
    simp only [lookupA] at h
    by_cases hk : k₂ = k
    · rw [if_pos hk] at h
      cases h
    · rw [if_neg hk] at h
      simp [appendArg, hk, ih h]

/-- Continuation lines accumulate, stripped, onto the final (current)
entry of the argument mapping. -/
theorem parseLoop_conts (cs more : List Line) (sd ld : List Line)
    (args0 : List (Line × List Line)) (k : Line) (v : List Line)
    (hcs : ∀ c ∈ cs, (c.drop 4).take 1 = [' '])
    (hk : lookupA k args0 = none) :
    parseLoop (cs ++ more) .argInside ⟨sd, ld, args0 ++ [(k, v)], k⟩ =
      parseLoop more .argInside ⟨sd, ld, args0 ++ [(k, v ++ cs.map pstrip)], k⟩ := by
  induction cs generalizing v with
  | nil => simp
  | cons c cs ih =>
    have hc := hcs c (List.mem_cons_self c cs)
    have hcne := take_one_drop_ne_nil c hc
    have hrest : ∀ x ∈ cs, (x.drop 4).take 1 = [' '] :=
      fun x hx => hcs x (List.mem_cons_of_mem c hx)
    simp only [List.cons_append, parseLoop]
    rw [if_neg hcne, if_pos hc]
    rw [show appendArg k (pstrip c) (args0 ++ [(k, v)]) = args0 ++ [(k, v ++ [pstrip c])] from
      appendArg_fresh_last k (pstrip c) v args0 hk]
    simp only [List.append_eq]
    rw [ih (v ++ [pstrip c]) hrest]
    simp

/-- The header of a well-formed group splits into the four-space-indented
name and the fragment. -/
theorem groupHeader_split (g : AGroup) (hcol : ':' ∉ g.name) :
    splitColon (groupHeader g) = some ("    ".data ++ g.name, g.frag) := by
  unfold groupHeader
  rw [show "    ".data ++ (g.name ++ ':' :: g.frag) =
    ("    ".data ++ g.name) ++ ':' :: g.frag from by simp]
  apply splitColon_append
  intro hmem
  rcases List.mem_append.mp hmem with h | h
  · simp at h
  · exact hcol h

/-- The header of a well-formed group is non-blank and fails the
index-4 continuation test. -/
theorem groupHeader_not_cont (g : AGroup) (hne : g.name ≠ [])
    (h1 : headNotWs g.name = true) :
    groupHeader g ≠ [] ∧ ((groupHeader g).drop 4).take 1 ≠ [' '] := by
  constructor
  · simp [groupHeader]
  · have hdrop : (groupHeader g).drop 4 = g.name ++ ':' :: g.frag := by
      unfold groupHeader
      rw [show (4 : Nat) = ("    ".data : Line).length from rfl]
      exact List.drop_left "    ".data _
    rw [hdrop]
    cases hnm : g.name with
    | nil => exact absurd hnm hne
    | cons c t =>
      rw [hnm] at h1
      simp only [headNotWs, Bool.not_eq_true'] at h1
      simp only [List.cons_append, List.take_cons, List.take_zero]
      intro hcontra
      have hcsp : c = ' ' := by simpa using hcontra
      rw [hcsp] at h1
      simp [wsC] at h1

/-- Processing one well-formed group from the argument-body state adds
its entry at the end of the mapping and leaves the parser in the
argument-body state with the group name current. -/
theorem parseLoop_group_inside (g : AGroup) (more : List Line) (sd ld : List Line)
    (args0 : List (Line × List Line)) (cur0 : Line)
    (hg : wfGroup g) (hk : lookupA g.name args0 = none) :
    parseLoop (groupLines g ++ more) .argInside ⟨sd, ld, args0, cur0⟩ =
      parseLoop more .argInside ⟨sd, ld, args0 ++ [groupEntry g], g.name⟩ := by
  obtain ⟨hne, h1, h2, hcol, hconts⟩ := hg
  obtain ⟨hhne, hd4⟩ := groupHeader_not_cont g hne h1
  have hps : pstrip ("    ".data ++ g.name) = g.name := pstrip_header_name g.name h1 h2
  simp only [groupLines, List.cons_append, parseLoop]
  rw [if_neg hhne, if_neg hd4, groupHeader_split g hcol]
  simp only [hps]
  rw [setArg_fresh g.name [pstrip g.frag] args0 hk]
  simp only [List.append_eq]
  exact parseLoop_conts g.conts more sd ld args0 g.name [pstrip g.frag] hconts hk

/-- Processing one well-formed group from the argument-header state has
the same effect. -/
theorem parseLoop_group_start (g : AGroup) (more : List Line) (sd ld : List Line)
    (args0 : List (Line × List Line)) (cur0 : Line)
    (hg : wfGroup g) (hk : lookupA g.name args0 = none) :
    parseLoop (groupLines g ++ more) .argStart ⟨sd, ld, args0, cur0⟩ =
      parseLoop more .argInside ⟨sd, ld, args0 ++ [groupEntry g], g.name⟩ := by
  obtain ⟨hne, h1, h2, hcol, hconts⟩ := hg
  have hps : pstrip ("    ".data ++ g.name) = g.name := pstrip_header_name g.name h1 h2
  simp only [groupLines, List.cons_append, parseLoop]
  rw [groupHeader_split g hcol]
  simp only [hps]
  rw [setArg_fresh g.name [pstrip g.frag] args0 hk]
  simp only [List.append_eq]
  exact parseLoop_conts g.conts more sd ld args0 g.name [pstrip g.frag] hconts hk

/-- Processing a list of well-formed groups with fresh, duplicate-free
names appends their entries in order; a blank line or the end of input
then terminates parsing with exactly those entries. -/
theorem parseLoop_groups_end (gs : List AGroup) (more : List Line) (sd ld : List Line)
    (args0 : List (Line × List Line)) (cur0 : Line)
    (hgs : ∀ g ∈ gs, wfGroup g)
    (hfresh : ∀ g ∈ gs, lookupA g.name args0 = none)
    (hnd : (gs.map (·.name)).Nodup)
    (hmore : more = [] ∨ ∃ r, more = [] :: r) :
    parseLoop (flattenGroups gs ++ more) .argInside ⟨sd, ld, args0, cur0⟩ =
      some (sd, ld, args0 ++ gs.map groupEntry) := by
  induction gs generalizing args0 cur0 with
  | nil =>
    rcases hmore with rfl | ⟨r, rfl⟩
    · simp [flattenGroups, parseLoop]
    · simp [flattenGroups, parseLoop]
  | cons g gs ih =>
    have hg := hgs g (List.mem_cons_self g gs)
    have hkg := hfresh g (List.mem_cons_self g gs)
    have hnd2 : (gs.map (·.name)).Nodup := by
      simp only [List.map_cons, List.nodup_cons] at hnd
      exact hnd.2
    have hgname : g.name ∉ gs.map (·.name) := by
      simp only [List.map_cons, List.nodup_cons] at hnd
      exact hnd.1
    have hfresh2 : ∀ g₂ ∈ gs, lookupA g₂.name (args0 ++ [groupEntry g]) = none := by
      intro g₂ hmem
      rw [lookupA_append, hfresh g₂ (List.mem_cons_of_mem g hmem)]
      have hne : ¬ g.name = g₂.name := by
        intro he
        exact hgname (he ▸ List.mem_map_of_mem (·.name) hmem)
      simp [lookupA, groupEntry, hne]
    rw [show flattenGroups (g :: gs) = groupLines g ++ flattenGroups gs from by
      simp [flattenGroups]]
    rw [List.append_assoc, parseLoop_group_inside g _ sd ld args0 cur0 hg hkg]
    rw [ih (args0 ++ [groupEntry g]) g.name
      (fun g₂ hm => hgs g₂ (List.mem_cons_of_mem g hm)) hfresh2 hnd2]
    simp

/-- The short-description phase accumulates all stripped lines up to the
first blank line and moves to the body state. -/
theorem parseLoop_short_phase (sls rest : List Line) (acc : ParseAcc)
    (h : ∀ l ∈ sls, l ≠ []) :
    parseLoop (sls ++ [] :: rest) .short acc =
      parseLoop rest .desc { acc with shortd := acc.shortd ++ sls.map pstrip } := by
  induction sls generalizing acc with
  | nil => simp [parseLoop]
  | cons l sls ih =>
    have hl := h l (List.mem_cons_self l sls)
    have hrest : ∀ x ∈ sls, x ≠ [] := fun x hx => h x (List.mem_cons_of_mem l hx)
    simp only [List.cons_append, parseLoop]
    rw [if_neg hl]
    simp only [List.append_eq]
    rw [ih _ hrest]
    simp

/-- The body phase accumulates stripped non-blank lines, dropping blank
ones, while no section marker or hide marker occurs. -/
theorem parseLoop_desc_phase (dls rest : List Line) (acc : ParseAcc)
    (h : ∀ l ∈ dls, argsMarker.isPrefixOf l = false ∧ emitMarker.isPrefixOf l = false ∧
      raiseMarker.isPrefixOf l = false ∧ pstrip l ≠ hideMarker) :
    parseLoop (dls ++ rest) .desc acc =
      parseLoop rest .desc
        { acc with longd := acc.longd ++
            (dls.filter (fun l => !(pstrip l).isEmpty)).map pstrip } := by
  induction dls generalizing acc with
  | nil => simp
  | cons l dls ih =>
    obtain ⟨ha, he, hr, hh⟩ := h l (List.mem_cons_self l dls)
    have hrest : ∀ x ∈ dls, argsMarker.isPrefixOf x = false ∧ emitMarker.isPrefixOf x = false ∧
        raiseMarker.isPrefixOf x = false ∧ pstrip x ≠ hideMarker :=
      fun x hx => h x (List.mem_cons_of_mem l hx)
    simp only [List.cons_append, parseLoop]
    rw [if_neg (by simp [ha]), if_neg (by simp [he, hr]), if_neg hh]
    by_cases hpl : pstrip l = []
    · rw [if_neg (by simp [hpl])]
      simp only [List.append_eq]
      rw [ih _ hrest]
      simp [List.filter_cons, hpl]
    · rw [if_pos hpl]
      simp only [List.append_eq]
      rw [ih _ hrest]
      have hb : (!(pstrip l).isEmpty) = true := by
        simp [List.isEmpty_iff, hpl]
      simp [List.filter_cons, hb]

/-- Looking up a group name in the produced mapping, with duplicate-free
group names, returns exactly that group's recorded fragments. -/
theorem lookupA_map_groupEntry (gs : List AGroup) (g : AGroup) (hg : g ∈ gs)
    (hnd : (gs.map (·.name)).Nodup) :
    lookupA g.name (gs.map groupEntry) = some (groupVal g) := by
  induction gs with
  | nil => cases hg
  | cons g₀ gs ih =>
    have hnd2 : (gs.map (·.name)).Nodup := by
      simp only [List.map_cons, List.nodup_cons] at hnd
      exact hnd.2
    rcases List.mem_cons.mp hg with rfl | hmem
    · simp [lookupA, groupEntry]
    · have hne : ¬ g₀.name = g.name := by
        simp only [List.map_cons, List.nodup_cons] at hnd
        intro he
        exact hnd.1 (he ▸ List.mem_map_of_mem (·.name) hmem)
      simp only [List.map_cons, groupEntry, lookupA]
      rw [if_neg hne]
      exact ih hmem hnd2

/-- An `Args:` line in the body state transitions to the argument-header
state, consuming the line. -/
theorem parseLoop_args_step (X : List Line) (acc : ParseAcc) :
    parseLoop (argsMarker :: X) .desc acc = parseLoop X .argStart acc := by
  simp only [parseLoop]
  rw [if_pos (by decide : argsMarker.isPrefixOf argsMarker = true)]

/-- Claim C3: for every well-formed docstring with an `Args:` section —
non-blank short-description lines, body lines free of section and hide
markers, then `Args:` followed by well-formed argument groups with
distinct names and terminated by a blank line or the end of input —
parsing succeeds, every argument name of the region is a key of the
resulting mapping, and its recorded description is the stripped header
fragment after the first colon followed by all its stripped
continuation lines, in input order (these fragments are what
`_get_command_doc` space-joins when rendering). -/
theorem c3_args_mapping (sls dls : List Line) (gs : List AGroup) (tail : List Line) (g : AGroup)
    (hs : ∀ l ∈ sls, l ≠ [])
    (hd : ∀ l ∈ dls, argsMarker.isPrefixOf l = false ∧ emitMarker.isPrefixOf l = false ∧
      raiseMarker.isPrefixOf l = false ∧ pstrip l ≠ hideMarker)
    (hgs : ∀ g₂ ∈ gs, wfGroup g₂)
    (hnd : (gs.map (·.name)).Nodup)
    (htail : tail = [] ∨ ∃ r, tail = [] :: r)
    (hg : g ∈ gs) :
    parse_docstring (sls ++ [] :: (dls ++ argsMarker :: (flattenGroups gs ++ tail))) =
      some (sls.map pstrip,
            (dls.filter (fun l => !(pstrip l).isEmpty)).map pstrip,
            gs.map groupEntry) ∧
    lookupA g.name (gs.map groupEntry) = some (pstrip g.frag :: g.conts.map pstrip) := by
  refine ⟨?_, lookupA_map_groupEntry gs g hg hnd⟩
  unfold parse_docstring
  rw [parseLoop_short_phase sls _ _ hs, parseLoop_desc_phase dls _ _ hd]
  cases gs with
  | nil => cases hg
  | cons g₀ gs₂ =>
    have hg₀ := hgs g₀ (List.mem_cons_self g₀ gs₂)
    have hnd2 : (gs₂.map (·.name)).Nodup := by
      simp only [List.map_cons, List.nodup_cons] at hnd
      exact hnd.2
    have hfresh : ∀ g₂ ∈ gs₂, lookupA g₂.name [groupEntry g₀] = none := by
      intro g₂ hmem
      have hne : ¬ g₀.name = g₂.name := by
        simp only [List.map_cons, List.nodup_cons] at hnd
        intro he
        exact hnd.1 (he ▸ List.mem_map_of_mem (·.name) hmem)
      simp [lookupA, groupEntry, hne]
    rw [parseLoop_args_step]
    rw [show flattenGroups (g₀ :: gs₂) = groupLines g₀ ++ flattenGroups gs₂ from by
      simp [flattenGroups]]
    rw [List.append_assoc, parseLoop_group_start g₀ _ _ _ [] _ hg₀ rfl]
    rw [parseLoop_groups_end gs₂ tail _ _ ([] ++ [groupEntry g₀]) g₀.name
      (fun g₂ hm => hgs g₂ (List.mem_cons_of_mem g₀ hm)) (by simpa using hfresh) hnd2 htail]
    simp

/-- Witness for C3 at a concrete two-group docstring with a continuation
line and a trailing blank line. -/
theorem c3_args_mapping_witness :
    parse_docstring (["Do it.".data] ++ [] :: (["Long one.".data] ++ argsMarker ::
        (flattenGroups [⟨"foo".data, " the foo.".data, ["        cont.".data]⟩,
          ⟨"bar".data, " the bar.".data, []⟩] ++ [[]]))) =
      some ((["Do it.".data] : List Line).map pstrip,
            ((["Long one.".data] : List Line).filter (fun l => !(pstrip l).isEmpty)).map pstrip,
            ([⟨"foo".data, " the foo.".data, ["        cont.".data]⟩,
              ⟨"bar".data, " the bar.".data, []⟩] : List AGroup).map groupEntry) ∧
    lookupA "foo".data
        (([⟨"foo".data, " the foo.".data, ["        cont.".data]⟩,
           ⟨"bar".data, " the bar.".data, []⟩] : List AGroup).map groupEntry) =
      some (pstrip (" the foo.".data) :: (["        cont.".data] : List Line).map pstrip) :=
  c3_args_mapping ["Do it.".data] ["Long one.".data]
    [⟨"foo".data, " the foo.".data, ["        cont.".data]⟩,
     ⟨"bar".data, " the bar.".data, []⟩]
    [[]] ⟨"foo".data, " the foo.".data, ["        cont.".data]⟩
    (by decide) (by decide) (by decide) (by decide) (Or.inr ⟨[], rfl⟩) (by decide)
